import Mathlib

/-!
Verification of the incontext timeline-generation pipeline
(`src/timeline_generator.py`, served by `src/backend/main.py`).

The pipeline's deterministic core (temporal bucketing via label grouping,
conditional semantic sub-clustering, sorting, window labelling, response
parsing, assembly) is embedded as executable Lean functions.  The external
collaborators — sklearn's `KMeans.fit_predict`, the sentence embedding plus
`hdbscan.HDBSCAN.fit_predict`, the chat model, `trafilatura` page fetching
and `json.loads` — are modelled as oracle parameters whose interface
contract (one label per input sample; an arbitrary response string; an
optional parse result) is assumed where the library guarantees it.
-/

open List

/-- An extracted event record: `{event, date, source_url}` dict
(`extract_events`, lines 109–115). -/
structure Event where
  event : String
  date : String
  source_url : String
deriving DecidableEq

/-- An article record produced by `get_articles` (lines 37–44). -/
structure Article where
  title : String
  url : String
  text : String
  published_at : String
deriving DecidableEq

/-- A raw `{event, date}` object from the extraction model's JSON array. -/
structure RawEvent where
  event : String
  date : String
deriving DecidableEq

/-- One `substories` entry (lines 212–216 / 228–232). -/
structure Substory where
  title : String
  summary : String
  events : List Event
deriving DecidableEq

/-- One timeline segment (lines 210–217 / 234–237). -/
structure Segment where
  time_window : String
  substories : List Substory
deriving DecidableEq

/-! ### Date parsing: `datetime.strptime(date_str, "%Y/%m/%d")` -/

/-- Days of each month, with February depending on leap year. -/
def daysInMonth (y m : Nat) : Nat :=
  if m = 2 then
    if y % 4 = 0 ∧ (y % 100 ≠ 0 ∨ y % 400 = 0) then 29 else 28
  else if m = 4 ∨ m = 6 ∨ m = 9 ∨ m = 11 then 30
  else 31

/-- Split a character list at every occurrence of `sep` (one-character
`str.split`); an empty input yields one empty field. -/
def splitOnChar (sep : Char) : List Char → List (List Char)
  | [] => [[]]
  | c :: cs =>
    let r := splitOnChar sep cs
    if c = sep then [] :: r
    else
      match r with
      | [] => [[c]]
      | h :: t => (c :: h) :: t

/-- Decimal value of a digit run. -/
def digitsToNat (l : List Char) : Nat :=
  l.foldl (fun n c => n * 10 + (c.toNat - '0'.toNat)) 0

/-- A `%Y` field, per CPython `_strptime`'s pattern `\d\d\d\d`: exactly four
digits; year 0 is then rejected by the `datetime` constructor
(`MINYEAR = 1`). -/
def parseYearField (l : List Char) : Option Nat :=
  if l.length = 4 ∧ l.all Char.isDigit then
    let y := digitsToNat l
    if 1 ≤ y then some y else none
  else none

/-- A `%m` field, per CPython's pattern `1[0-2]|0[1-9]|[1-9]`: one or two
digits with value 1–12 (no space padding). -/
def parseMonthField (l : List Char) : Option Nat :=
  if (l.length = 1 ∨ l.length = 2) ∧ l.all Char.isDigit then
    let m := digitsToNat l
    if 1 ≤ m ∧ m ≤ 12 then some m else none
  else none

/-- A `%d` field, per CPython's pattern
`3[01]|[12]\d|0[1-9]|[1-9]| [1-9]`: one or two digits with value 1–31, or a
space followed by a single nonzero digit. -/
def parseDayField (l : List Char) : Option Nat :=
  match l with
  | [' ', c] =>
    if c.isDigit ∧ c ≠ '0' then some (c.toNat - '0'.toNat) else none
  | _ =>
    if (l.length = 1 ∨ l.length = 2) ∧ l.all Char.isDigit then
      let d := digitsToNat l
      if 1 ≤ d ∧ d ≤ 31 then some d else none
    else none

/-- Model of `datetime.strptime(s, "%Y/%m/%d")` (line 184): the whole string
must be `%Y`, a literal `/`, `%m`, a literal `/`, `%d` (CPython requires the
match to consume the entire input, and the field patterns never match `/`,
so splitting on `/` is equivalent); the day must then exist in the parsed
month (`datetime`'s "day is out of range for month").  `none` models the
`ValueError` strptime or the `datetime` constructor raises otherwise. -/
def parseDateYMD (s : String) : Option (Nat × Nat × Nat) :=
  match splitOnChar '/' s.data with
  | [ys, ms, ds] =>
    match parseYearField ys, parseMonthField ms, parseDayField ds with
    | some y, some m, some d =>
      if d ≤ daysInMonth y m then some (y, m, d) else none
    | _, _, _ => none
  | _ => none

/-- Days from year 1 to the start of year `y` (proleptic Gregorian, as used
by `datetime.toordinal`). -/
def daysBeforeYear (y : Nat) : Nat :=
  let p := y - 1
  365 * p + p / 4 - p / 100 + p / 400

/-- Days in year `y` before month `m`. -/
def daysBeforeMonth (y m : Nat) : Nat :=
  (List.range (m - 1)).foldl (fun acc i => acc + daysInMonth y (i + 1)) 0

/-- Model of `datetime(y, m, d).toordinal()`. -/
def toOrdinal (y m d : Nat) : Nat :=
  daysBeforeYear y + daysBeforeMonth y m + d

/-- Model of `date_to_days` (lines 183–184): day offset from `datetime(2000, 1, 1)`;
`none` models the `ValueError` for an unparsable date string. -/
def date_to_days (s : String) : Option Int :=
  (parseDateYMD s).map fun t =>
    (toOrdinal t.1 t.2.1 t.2.2 : Int) - (toOrdinal 2000 1 1 : Int)

/-! ### Label grouping: `grouped.setdefault(label, []).append(events[idx])` -/

section Grouping

variable {α β : Type} [DecidableEq α]

/-- Append `b` to the group of label `l`, creating the group at the end if
the label is new — the order-of-first-occurrence semantics of a Python dict
populated with `setdefault` (lines 167–170, 191–193). -/
def addToGroups (acc : List (α × List β)) (l : α) (b : β) : List (α × List β) :=
  match acc with
  | [] => [(l, [b])]
  | (l', bs) :: rest =>
    if l = l' then (l', bs ++ [b]) :: rest else (l', bs) :: addToGroups rest l b

/-- Fold a list of `(label, item)` pairs into ordered groups. -/
def foldGroups (acc : List (α × List β)) (ps : List (α × β)) : List (α × List β) :=
  ps.foldl (fun acc p => addToGroups acc p.1 p.2) acc

/-- Model of `for idx, label in enumerate(labels): grouped.setdefault(label, []).append(items[idx])`. -/
def groupByLabels (labels : List α) (items : List β) : List (α × List β) :=
  foldGroups [] (labels.zip items)

/-- Concatenation of all groups' members. -/
def groupsFlat (gs : List (α × List β)) : List β :=
  (gs.map Prod.snd).flatten

/-- The labels of the groups, in order of first occurrence. -/
def groupsKeys (gs : List (α × List β)) : List α :=
  gs.map Prod.fst


end Grouping

/-! ### Python string comparison, `min` and `max`

Python compares strings lexicographically by Unicode code point; these
boolean functions model that order and evaluate by kernel reduction. -/

/-- Lexicographic `l₁ <= l₂` on code points. -/
def charsLE : List Char → List Char → Bool
  | [], _ => true
  | _ :: _, [] => false
  | c :: cs, d :: ds => if c < d then true else if d < c then false else charsLE cs ds


/-- Python `s1 <= s2` on strings. -/
def pyLE (a b : String) : Prop := charsLE a.data b.data = true

/-- Python `min(a, b)` on strings: the earlier argument wins ties. -/
def strMin (a b : String) : String :=
  if charsLE a.data b.data then a else b

/-- Python `max(a, b)` on strings: replaces the current value only on a
strictly greater candidate, so the earlier argument wins ties. -/
def strMax (a b : String) : String :=
  if charsLE b.data a.data then a else b

/-- Python `min(iterable)`: `none` models the `ValueError` on an empty one. -/
def minD : List String → Option String
  | [] => none
  | s :: rest => some (rest.foldl strMin s)

/-- Python `max(iterable)`. -/
def maxD : List String → Option String
  | [] => none
  | s :: rest => some (rest.foldl strMax s)


/-! ### Sorting (Python `sorted`, a stable sort, with string keys) -/

/-- The order used by `sorted(time_group, key=lambda e: e['date'])`
(lines 203, 224): compare the date strings. -/
def evDateLE (a b : Event) : Prop := charsLE a.date.data b.date.data = true

instance : DecidableRel evDateLE := fun a b =>
  inferInstanceAs (Decidable (_ = true))


/-- The key of `sorted(time_clusters.items(), key=lambda x: min(e['date'] for e in x[1]))`
(line 202): the minimum date in the bucket (`none` only on an empty bucket,
which never occurs). -/
def bucketMinDate (es : List Event) : Option String :=
  minD (es.map Event.date)

/-- Comparison of optional minimum dates; `none` (the empty bucket, never
produced) sorts last. -/
def optMinLE : Option String → Option String → Bool
  | _, none => true
  | none, some _ => false
  | some a, some b => charsLE a.data b.data


/-- Bucket order by minimum contained date (line 202). -/
def bucketLE (g₁ g₂ : Nat × List Event) : Prop :=
  optMinLE (bucketMinDate g₁.2) (bucketMinDate g₂.2) = true

instance : DecidableRel bucketLE := fun g₁ g₂ =>
  inferInstanceAs (Decidable (_ = true))


/-! ### Temporal partitioning: `cluster_by_time` -/

/-- Sequence a fallible computation over a list, stopping at the first
error — the evaluation order of a Python list comprehension that may raise. -/
def mapExcept {ε α β : Type} (f : α → Except ε β) : List α → Except ε (List β)
  | [] => .ok []
  | a :: as =>
    match f a with
    | .error e => .error e
    | .ok b =>
      match mapExcept f as with
      | .error e => .error e
      | .ok bs => .ok (b :: bs)

/-- The `date_vals` array of line 186: one day offset per event, evaluated
left to right; a strptime `ValueError` propagates as `Except.error`. -/
def dateValsE (events : List Event) : Except String (List Int) :=
  mapExcept (fun e =>
    match date_to_days e.date with
    | some v => Except.ok v
    | none => Except.error "ValueError: time data does not match format") events

/-- Model of `cluster_by_time` (lines 182–195).  sklearn's
`KMeans(n_clusters=n).fit_predict` raises `ValueError` when
`n_samples < n_clusters` and otherwise returns one integer label per sample;
the label assignment itself (k-means++, `random_state=0`, `n_init='auto'`)
is the oracle `kml`.  Labels are grouped dict-style in first-occurrence
order (lines 191–193). -/
def cluster_by_time (kml : List Int → List Nat) (n_clusters : Nat)
    (events : List Event) : Except String (List (Nat × List Event)) :=
  match dateValsE events with
  | .error msg => .error msg
  | .ok date_vals =>
    if date_vals.length < n_clusters then
      .error "ValueError: n_samples should be at least n_clusters"
    else
      .ok (groupByLabels (kml date_vals) events)

/-! ### Semantic sub-clustering: `cluster_events` -/

/-- Model of `cluster_events` (lines 160–179): embed each event text and label it with
`hdbscan.HDBSCAN(min_cluster_size=2).fit_predict`; the embedding plus
`fit_predict` is the oracle `hdb`, one integer label per event (−1 = noise).
No label is skipped (line 169): noise events are grouped like any other. -/
def cluster_events (hdb : List String → List Int) (events : List Event)
    : List (Int × List Event) :=
  groupByLabels (hdb (events.map Event.event)) events

/-! ### Python string primitives

Executable models of the Python `str` methods the source uses; defined on
`List Char` so they evaluate by kernel reduction. -/

/-- The ASCII whitespace stripped by Python `str.strip()`. -/
def isPySpace (c : Char) : Bool :=
  c = ' ' || c = '\t' || c = '\n' || c = '\r' || c = '\x0b' || c = '\x0c'

/-- Drop characters satisfying `p` from both ends. -/
def stripList (p : Char → Bool) (l : List Char) : List Char :=
  ((l.dropWhile p).reverse.dropWhile p).reverse

/-- Python `s.strip()`. -/
def pyStrip (s : String) : String :=
  String.mk (stripList isPySpace s.data)

/-- Whether `pat` is an initial run of `l`. -/
def isPreList : List Char → List Char → Bool
  | [], _ => true
  | _ :: _, [] => false
  | c :: cs, d :: ds => c = d && isPreList cs ds

/-- Python `s.startswith(pat)`. -/
def pyStartsWith (s pat : String) : Bool :=
  isPreList pat.data s.data

/-- Replace every non-overlapping occurrence of the (nonempty) pattern,
scanning left to right; `fuel` bounds the recursion and is instantiated
with the list length. -/
def replaceList (pat rep : List Char) : Nat → List Char → List Char
  | _, [] => []
  | 0, l => l
  | fuel + 1, c :: cs =>
    if isPreList pat (c :: cs) then
      rep ++ replaceList pat rep fuel (cs.drop (pat.length - 1))
    else
      c :: replaceList pat rep fuel cs

/-- Python `s.replace(pat, rep)` for a nonempty pattern. -/
def pyReplace (s pat rep : String) : String :=
  String.mk (replaceList pat.data rep.data s.data.length s.data)

/-! ### Summarizer response parsing: `summarize_with_gpt` -/

/-- Python `str.splitlines()` restricted to `'\n'` boundaries (the only line
terminator occurring in the parsed responses): split on `'\n'` without a
trailing empty line. -/
def pySplitlines (s : String) : List String :=
  let parts := (splitOnChar '\n' s.data).map String.mk
  if parts.getLast? = some "" then parts.dropLast else parts

/-- The `for line in output.splitlines()` loop of `summarize_with_gpt`
(lines 147–155): a `Title:`/`Summary:` line overwrites the field (Python
`replace` removes every occurrence of the label, then `strip`); a non-label
line stops the scan once both fields are nonempty (Python truthiness of
`title and summary`). -/
def scanTitleSummary (title summary : String) : List String → String × String
  | [] => (title, summary)
  | line :: rest =>
    if pyStartsWith line "Title:" then
      scanTitleSummary (pyStrip (pyReplace line "Title:" "")) summary rest
    else if pyStartsWith line "Summary:" then
      scanTitleSummary title (pyStrip (pyReplace line "Summary:" "")) rest
    else if title ≠ "" ∧ summary ≠ "" then (title, summary)
    else scanTitleSummary title summary rest

/-- The response handling of `summarize_with_gpt` (lines 144–157):
`content.strip()`, then scan the lines with both fields initially empty. -/
def parseSummaryResponse (content : String) : String × String :=
  scanTitleSummary "" "" (pySplitlines (pyStrip content))

/-- Model of `summarize_with_gpt` (lines 118–157): the chat completion on the prompt
wrapping `bullet_points` (lines 124–143) is the oracle `llm` from the bullet
list to the response content. -/
def summarize_with_gpt (llm : String → String) (bullet_points : String)
    : String × String :=
  parseSummaryResponse (llm bullet_points)

/-! ### Assembly: `cluster_temporal_then_semantic` -/

/-- Model of `"\n".join(f"- {e['date']}: {e['event']}" for e in ...)` (lines 207, 225). -/
def bulletPoints (es : List Event) : String :=
  String.intercalate "\n" (es.map fun e => "- " ++ e.date ++ ": " ++ e.event)

/-- Default used only to model Python's `time_group[0]` / `time_group[-1]`
on lists that are provably nonempty. -/
def dummyEvent : Event := ⟨"", "", ""⟩

/-- Model of `f"{time_group[0]['date']} – {time_group[-1]['date']}"` (lines 211, 235). -/
def timeWindowLabel (tg : List Event) : String :=
  (tg.headD dummyEvent).date ++ " – " ++ (tg.getLastD dummyEvent).date

/-- Build one substory from a date-sorted event cluster: bullet list →
summarizer → `{title, summary, events}` (lines 207–208 & 212–216, or
225–232). -/
def mkSubstory (llm : String → String) (es : List Event) : Substory :=
  let ts := summarize_with_gpt llm (bulletPoints es)
  ⟨ts.1, ts.2, es⟩

/-- The body of the `for label, time_group in sorted(...)` loop (lines
202–237): sort the bucket by date, then either summarize it whole
(`len(time_group) < 5`, lines 206–217) or sub-cluster semantically and
summarize each cluster in label order (lines 218–237). -/
def processBucket (hdb : List String → List Int) (llm : String → String)
    (bucket : List Event) : Segment :=
  let tg := List.insertionSort evDateLE bucket
  if tg.length < 5 then
    { time_window := timeWindowLabel tg, substories := [mkSubstory llm tg] }
  else
    { time_window := timeWindowLabel tg,
      substories := (cluster_events hdb tg).map fun q =>
        mkSubstory llm (List.insertionSort evDateLE q.2) }

/-- Model of `cluster_temporal_then_semantic` (lines 198–239): temporal buckets,
sorted by minimum contained date, each processed into a segment. -/
def cluster_temporal_then_semantic (kml : List Int → List Nat)
    (hdb : List String → List Int) (llm : String → String)
    (events : List Event) : Except String (List Segment) :=
  match cluster_by_time kml 4 events with
  | .error m => .error m
  | .ok time_clusters =>
      .ok ((List.insertionSort bucketLE time_clusters).map fun p =>
        processBucket hdb llm p.2)

/-! ### Event extraction and the pipeline entry point -/

/-- Python `s.strip(chars)`: drop the given characters from both ends. -/
def pyStripChars (cs : List Char) (s : String) : String :=
  String.mk (((s.data.dropWhile fun c => cs.contains c).reverse.dropWhile
    fun c => cs.contains c).reverse)

/-- Clean the extraction model's content (lines 97–99): strip backticks,
spaces and newlines from both ends, and drop a leading `"json"` marker. -/
def cleanEventResponse (content : String) : String :=
  let raw := pyStripChars ['`', ' ', '\n'] content
  if pyStartsWith raw "json" then String.mk (raw.data.drop 4) else raw

/-- Model of `gpt_event_exraction` plus `extract_text` (lines 50–106), with oracles:
`fetchText url` models `trafilatura.fetch_url` + `extract` (`none` = failure
or the exception caught at lines 54–56; the empty string is falsy at line 74
too); `llmE` models the chat completion on the prompt built from the article
and its text (lines 77–95); `jsonParse` models `json.loads` on the cleaned
content (`none` = `JSONDecodeError`, caught at lines 103–106, yielding `[]`). -/
def gpt_event_exraction (fetchText : String → Option String)
    (llmE : Article → String → String)
    (jsonParse : String → Option (List RawEvent)) (article : Article)
    : List RawEvent :=
  match fetchText article.url with
  | none => []
  | some txt =>
    if txt = "" then []
    else
      match jsonParse (cleanEventResponse (llmE article txt)) with
      | some evs => evs
      | none => []

/-- Model of `extract_events` (lines 109–115): tag each raw event with the source URL. -/
def extract_events (fetchText : String → Option String)
    (llmE : Article → String → String)
    (jsonParse : String → Option (List RawEvent)) (article : Article)
    : List Event :=
  (gpt_event_exraction fetchText llmE jsonParse article).map fun r =>
    ⟨r.event, r.date, article.url⟩

/-- Model of `sum([extract_events(article) for article in articles], [])` (lines
242–243); the article source `get_articles` is the oracle `src`. -/
def pipeline_events (src : String → List Article)
    (fetchText : String → Option String) (llmE : Article → String → String)
    (jsonParse : String → Option (List RawEvent)) (query : String)
    : List Event :=
  ((src query).map (extract_events fetchText llmE jsonParse)).flatten

/-- Model of `run_incontext` (lines 241–252): extract events from all retrieved
articles, build the timeline, pair it with the query.  Exceptions propagate
(the HTTP layer in `src/backend/main.py` turns them into a 500 response). -/
def run_incontext (src : String → List Article)
    (fetchText : String → Option String) (llmE : Article → String → String)
    (jsonParse : String → Option (List RawEvent))
    (kml : List Int → List Nat) (hdb : List String → List Int)
    (llm : String → String) (query : String)
    : Except String (String × List Segment) :=
  match cluster_temporal_then_semantic kml hdb llm
      (pipeline_events src fetchText llmE jsonParse query) with
  | .error m => .error m
  | .ok timeline => .ok (query, timeline)

/-- All events of a segment, in substory order. -/
def segEvents (seg : Segment) : List Event :=
  (seg.substories.map Substory.events).flatten

/-- Minimum date over a segment's events. -/
def segMinDate (seg : Segment) : Option String :=
  minD ((segEvents seg).map Event.date)

/-- Maximum date over a segment's events. -/
def segMaxDate (seg : Segment) : Option String :=
  maxD ((segEvents seg).map Event.date)

/-! ### Theorems: order properties of the Python string comparison -/

theorem charsLE_refl (l : List Char) : charsLE l l = true := by
  induction l with
  | nil => rfl
  | cons c cs ih => simp [charsLE, lt_irrefl, ih]

theorem charsLE_total (l₁ l₂ : List Char) :
    charsLE l₁ l₂ = true ∨ charsLE l₂ l₁ = true := by
  induction l₁ generalizing l₂ with
  | nil => exact Or.inl rfl
  | cons c cs ih =>
    cases l₂ with
    | nil => exact Or.inr rfl
    | cons d ds =>
      rcases lt_trichotomy c d with h | h | h
      · exact Or.inl (by simp [charsLE, h])
      · subst h
        rcases ih ds with h' | h'
        · exact Or.inl (by simp [charsLE, lt_irrefl, h'])
        · exact Or.inr (by simp [charsLE, lt_irrefl, h'])
      · exact Or.inr (by simp [charsLE, h])

theorem charsLE_trans {l₁ l₂ l₃ : List Char} (h₁ : charsLE l₁ l₂ = true)
    (h₂ : charsLE l₂ l₃ = true) : charsLE l₁ l₃ = true := by
  induction l₁ generalizing l₂ l₃ with
  | nil => rfl
  | cons c cs ih =>
    cases l₂ with
    | nil => simp [charsLE] at h₁
    | cons d ds =>
      cases l₃ with
      | nil => simp [charsLE] at h₂
      | cons e es =>
        simp only [charsLE] at h₁ h₂ ⊢
        rcases lt_trichotomy c d with hcd | hcd | hcd
        · rcases lt_trichotomy d e with hde | hde | hde
          · simp [lt_trans hcd hde]
          · subst hde; simp [hcd]
          · simp only [if_pos hde, if_neg (asymm hde)] at h₂
            simp at h₂
        · subst hcd
          rcases lt_trichotomy c e with hce | hce | hce
          · simp [hce]
          · subst hce
            simp only [if_neg (lt_irrefl c)] at h₁ h₂ ⊢
            exact ih h₁ h₂
          · simp only [if_pos hce, if_neg (asymm hce)] at h₂
            simp at h₂
        · simp only [if_pos hcd, if_neg (asymm hcd)] at h₁
          simp at h₁

theorem charsLE_antisymm {l₁ l₂ : List Char} (h₁ : charsLE l₁ l₂ = true)
    (h₂ : charsLE l₂ l₁ = true) : l₁ = l₂ := by
  induction l₁ generalizing l₂ with
  | nil =>
    cases l₂ with
    | nil => rfl
    | cons d ds => simp [charsLE] at h₂
  | cons c cs ih =>
    cases l₂ with
    | nil => simp [charsLE] at h₁
    | cons d ds =>
      simp only [charsLE] at h₁ h₂
      rcases lt_trichotomy c d with hcd | hcd | hcd
      · simp only [if_pos hcd, if_neg (asymm hcd)] at h₂
        simp at h₂
      · subst hcd
        simp only [if_neg (lt_irrefl c)] at h₁ h₂
        exact congrArg (c :: ·) (ih h₁ h₂)
      · simp only [if_pos hcd, if_neg (asymm hcd)] at h₁
        simp at h₁

instance : IsTotal Event evDateLE :=
  ⟨fun a b => charsLE_total a.date.data b.date.data⟩

instance : IsTrans Event evDateLE :=
  ⟨fun _ _ _ h₁ h₂ => charsLE_trans h₁ h₂⟩

theorem optMinLE_total (o₁ o₂ : Option String) :
    optMinLE o₁ o₂ = true ∨ optMinLE o₂ o₁ = true := by
  cases o₁ with
  | none => cases o₂ with
    | none => exact Or.inl rfl
    | some b => exact Or.inr rfl
  | some a => cases o₂ with
    | none => exact Or.inl rfl
    | some b => exact charsLE_total a.data b.data

theorem optMinLE_trans {o₁ o₂ o₃ : Option String} (h₁ : optMinLE o₁ o₂ = true)
    (h₂ : optMinLE o₂ o₃ = true) : optMinLE o₁ o₃ = true := by
  cases o₃ with
  | none => cases o₁ <;> rfl
  | some c =>
    cases o₂ with
    | none => simp [optMinLE] at h₂
    | some b =>
      cases o₁ with
      | none => simp [optMinLE] at h₁
      | some a => exact charsLE_trans h₁ h₂

instance : IsTotal (Nat × List Event) bucketLE :=
  ⟨fun g₁ g₂ => optMinLE_total (bucketMinDate g₁.2) (bucketMinDate g₂.2)⟩

instance : IsTrans (Nat × List Event) bucketLE :=
  ⟨fun _ _ _ h₁ h₂ => optMinLE_trans h₁ h₂⟩

/-! ### Theorems: label grouping partitions its input -/

theorem zipMapSnd {α β : Type} (labels : List α) (items : List β)
    (h : labels.length = items.length) :
    (labels.zip items).map Prod.snd = items := by
  induction labels generalizing items with
  | nil => cases items with
    | nil => simp
    | cons b bs => simp at h
  | cons a as ih =>
    cases items with
    | nil => simp at h
    | cons b bs =>
      simp only [List.zip_cons_cons, List.map_cons, List.cons.injEq]
      exact ⟨trivial, ih bs (by simpa using h)⟩

theorem zipMapFst {α β : Type} (labels : List α) (items : List β)
    (h : labels.length = items.length) :
    (labels.zip items).map Prod.fst = labels := by
  induction labels generalizing items with
  | nil => simp
  | cons a as ih =>
    cases items with
    | nil => simp at h
    | cons b bs =>
      simp only [List.zip_cons_cons, List.map_cons, List.cons.injEq]
      exact ⟨trivial, ih bs (by simpa using h)⟩

section GroupingLemmas

variable {α β : Type} [DecidableEq α]

theorem groupsFlat_addToGroups (acc : List (α × List β)) (l : α) (b : β) :
    groupsFlat (addToGroups acc l b) ~ groupsFlat acc ++ [b] := by
  induction acc with
  | nil => simp [addToGroups, groupsFlat]
  | cons hd rest ih =>
    obtain ⟨l', bs⟩ := hd
    by_cases h : l = l'
    · simp only [addToGroups, if_pos h, groupsFlat, List.map_cons, List.flatten_cons]
      calc bs ++ [b] ++ (rest.map Prod.snd).flatten
          ~ bs ++ ([b] ++ (rest.map Prod.snd).flatten) := by rw [List.append_assoc]
        _ ~ bs ++ ((rest.map Prod.snd).flatten ++ [b]) :=
            (List.perm_append_comm).append_left bs
        _ ~ bs ++ (rest.map Prod.snd).flatten ++ [b] := by rw [List.append_assoc]
    · simp only [addToGroups, if_neg h, groupsFlat, List.map_cons, List.flatten_cons]
      calc bs ++ groupsFlat (addToGroups rest l b)
          ~ bs ++ (groupsFlat rest ++ [b]) := ih.append_left bs
        _ ~ bs ++ groupsFlat rest ++ [b] := by rw [List.append_assoc]

theorem groupsFlat_foldGroups (ps : List (α × β)) :
    ∀ acc, groupsFlat (foldGroups acc ps) ~ groupsFlat acc ++ ps.map Prod.snd := by
  induction ps with
  | nil => intro acc; simp [foldGroups]
  | cons p ps ih =>
    intro acc
    have h1 : foldGroups acc (p :: ps) = foldGroups (addToGroups acc p.1 p.2) ps := rfl
    rw [h1]
    calc groupsFlat (foldGroups (addToGroups acc p.1 p.2) ps)
        ~ groupsFlat (addToGroups acc p.1 p.2) ++ ps.map Prod.snd := ih _
      _ ~ (groupsFlat acc ++ [p.2]) ++ ps.map Prod.snd :=
          (groupsFlat_addToGroups acc p.1 p.2).append_right _
      _ ~ groupsFlat acc ++ (p :: ps).map Prod.snd := by
          rw [List.append_assoc]; simp

/-- Grouping loses and duplicates nothing: the concatenation of all groups is
a permutation of the input items (given one label per item). -/
theorem groupsFlat_groupByLabels (labels : List α) (items : List β)
    (h : labels.length = items.length) :
    groupsFlat (groupByLabels labels items) ~ items := by
  have h1 := groupsFlat_foldGroups (α := α) (β := β) (labels.zip items) []
  rw [groupByLabels]
  simpa [groupsFlat, zipMapSnd labels items h] using h1

theorem groupsKeys_addToGroups (acc : List (α × List β)) (l : α) (b : β) :
    groupsKeys (addToGroups acc l b) =
      if l ∈ groupsKeys acc then groupsKeys acc else groupsKeys acc ++ [l] := by
  induction acc with
  | nil => simp [addToGroups, groupsKeys]
  | cons hd rest ih =>
    obtain ⟨l', bs⟩ := hd
    by_cases h : l = l'
    · simp [addToGroups, if_pos h, groupsKeys, h]
    · simp only [addToGroups, if_neg h, groupsKeys, List.map_cons]
      simp only [groupsKeys] at ih
      rw [ih]
      by_cases hm : l ∈ rest.map Prod.fst
      · simp [hm, h]
      · simp [hm, h]

theorem groupsKeys_foldGroups_mem (ps : List (α × β)) :
    ∀ acc x, x ∈ groupsKeys (foldGroups acc ps) ↔
      x ∈ groupsKeys acc ∨ x ∈ ps.map Prod.fst := by
  induction ps with
  | nil => intro acc x; simp [foldGroups]
  | cons p ps ih =>
    intro acc x
    have h1 : foldGroups acc (p :: ps) = foldGroups (addToGroups acc p.1 p.2) ps := rfl
    rw [h1, ih]
    rw [groupsKeys_addToGroups]
    by_cases hm : p.1 ∈ groupsKeys acc
    · simp only [if_pos hm, List.map_cons, List.mem_cons]
      constructor
      · rintro (h | h)
        · exact Or.inl h
        · exact Or.inr (Or.inr h)
      · rintro (h | h | h)
        · exact Or.inl h
        · exact Or.inl (h ▸ hm)
        · exact Or.inr h
    · simp only [if_neg hm, List.mem_append, List.mem_singleton, List.map_cons,
        List.mem_cons]
      tauto

theorem groupsKeys_foldGroups_nodup (ps : List (α × β)) :
    ∀ acc, (groupsKeys acc).Nodup → (groupsKeys (foldGroups acc ps)).Nodup := by
  induction ps with
  | nil => intro acc h; exact h
  | cons p ps ih =>
    intro acc h
    have h1 : foldGroups acc (p :: ps) = foldGroups (addToGroups acc p.1 p.2) ps := rfl
    rw [h1]
    apply ih
    rw [groupsKeys_addToGroups]
    by_cases hm : p.1 ∈ groupsKeys acc
    · simpa [hm] using h
    · simp only [if_neg hm]
      exact List.Nodup.append h (List.nodup_singleton _)
        (by simpa [List.disjoint_singleton] using hm)

/-- Each distinct label yields exactly one group: group keys are nodup and
are exactly the labels that occur (given one label per item). -/
theorem groupsKeys_groupByLabels (labels : List α) (items : List β)
    (h : labels.length = items.length) :
    (groupsKeys (groupByLabels labels items)).Nodup ∧
      ∀ x, x ∈ groupsKeys (groupByLabels labels items) ↔ x ∈ labels := by
  constructor
  · exact groupsKeys_foldGroups_nodup _ _ (by simp [groupsKeys])
  · intro x
    rw [groupByLabels, groupsKeys_foldGroups_mem, zipMapFst labels items h]
    simp [groupsKeys]

theorem groups_nonempty_addToGroups (acc : List (α × List β)) (l : α) (b : β)
    (h : ∀ g ∈ acc, g.2 ≠ []) : ∀ g ∈ addToGroups acc l b, g.2 ≠ [] := by
  induction acc with
  | nil =>
    intro g hg
    simp only [addToGroups, List.mem_singleton] at hg
    subst hg
    simp
  | cons hd rest ih =>
    obtain ⟨l', bs⟩ := hd
    intro g hg
    by_cases he : l = l'
    · simp only [addToGroups, if_pos he, List.mem_cons] at hg
      rcases hg with h1 | h1
      · simp [h1]
      · exact h g (List.mem_cons_of_mem _ h1)
    · simp only [addToGroups, if_neg he, List.mem_cons] at hg
      rcases hg with h1 | h1
      · exact h g (h1 ▸ List.mem_cons_self _ _)
      · exact ih (fun g hg => h g (List.mem_cons_of_mem _ hg)) g h1

theorem groups_nonempty_foldGroups (ps : List (α × β)) :
    ∀ acc, (∀ g ∈ acc, g.2 ≠ []) →
      ∀ g ∈ foldGroups acc ps, g.2 ≠ [] := by
  induction ps with
  | nil => intro acc h; exact h
  | cons p ps ih =>
    intro acc h
    exact ih _ (groups_nonempty_addToGroups acc p.1 p.2 h)

/-- Every group produced by grouping is nonempty. -/
theorem groups_nonempty_groupByLabels (labels : List α) (items : List β) :
    ∀ g ∈ groupByLabels labels items, g.2 ≠ [] :=
  groups_nonempty_foldGroups _ _ (by simp)

end GroupingLemmas

/-! ### Theorems: Python min/max of string lists -/

theorem foldl_strMin_spec (l : List String) (s : String) :
    ((l.foldl strMin s) = s ∨ (l.foldl strMin s) ∈ l) ∧
      pyLE (l.foldl strMin s) s ∧ ∀ x ∈ l, pyLE (l.foldl strMin s) x := by
  induction l generalizing s with
  | nil => exact ⟨Or.inl rfl, ⟨charsLE_refl _, by simp⟩⟩
  | cons t l ih =>
    have hfold : (t :: l).foldl strMin s = l.foldl strMin (strMin s t) := rfl
    obtain ⟨hmem, hles, hall⟩ := ih (strMin s t)
    have hmins : pyLE (strMin s t) s := by
      unfold strMin pyLE
      by_cases h : charsLE s.data t.data = true
      · simp [h, charsLE_refl]
      · rcases charsLE_total s.data t.data with h' | h'
        · exact absurd h' h
        · simp [h, h']
    have hmint : pyLE (strMin s t) t := by
      unfold strMin pyLE
      by_cases h : charsLE s.data t.data = true
      · simp [h]
      · simp [h, charsLE_refl]
    refine ⟨?_, ?_, ?_⟩
    · rw [hfold]
      rcases hmem with h | h
      · rw [h]
        unfold strMin
        by_cases hc : charsLE s.data t.data = true
        · simp [hc]
        · simp [hc]
      · exact Or.inr (List.mem_cons_of_mem _ h)
    · rw [hfold]; exact charsLE_trans hles hmins
    · intro x hx
      rw [hfold]
      rcases List.mem_cons.mp hx with h | h
      · subst h; exact charsLE_trans hles hmint
      · exact hall x h

theorem minD_spec {l : List String} {m : String} (h : minD l = some m) :
    m ∈ l ∧ ∀ x ∈ l, pyLE m x := by
  cases l with
  | nil => simp [minD] at h
  | cons s rest =>
    simp only [minD, Option.some.injEq] at h
    obtain ⟨hmem, hles, hall⟩ := foldl_strMin_spec rest s
    subst h
    refine ⟨?_, ?_⟩
    · rcases hmem with h | h
      · rw [h]; exact List.mem_cons_self _ _
      · exact List.mem_cons_of_mem _ h
    · intro x hx
      rcases List.mem_cons.mp hx with h | h
      · subst h; exact hles
      · exact hall x h

theorem foldl_strMax_spec (l : List String) (s : String) :
    ((l.foldl strMax s) = s ∨ (l.foldl strMax s) ∈ l) ∧
      pyLE s (l.foldl strMax s) ∧ ∀ x ∈ l, pyLE x (l.foldl strMax s) := by
  induction l generalizing s with
  | nil => exact ⟨Or.inl rfl, ⟨charsLE_refl _, by simp⟩⟩
  | cons t l ih =>
    have hfold : (t :: l).foldl strMax s = l.foldl strMax (strMax s t) := rfl
    obtain ⟨hmem, hles, hall⟩ := ih (strMax s t)
    have hmaxs : pyLE s (strMax s t) := by
      unfold strMax pyLE
      by_cases h : charsLE t.data s.data = true
      · simp [h, charsLE_refl]
      · rcases charsLE_total s.data t.data with h' | h'
        · simp [h, h']
        · exact absurd h' h
    have hmaxt : pyLE t (strMax s t) := by
      unfold strMax pyLE
      by_cases h : charsLE t.data s.data = true
      · simp [h]
      · simp [h, charsLE_refl]
    refine ⟨?_, ?_, ?_⟩
    · rw [hfold]
      rcases hmem with h | h
      · rw [h]
        unfold strMax
        by_cases hc : charsLE t.data s.data = true
        · simp [hc]
        · simp [hc]
      · exact Or.inr (List.mem_cons_of_mem _ h)
    · rw [hfold]; exact charsLE_trans hmaxs hles
    · intro x hx
      rw [hfold]
      rcases List.mem_cons.mp hx with h | h
      · subst h; exact charsLE_trans hmaxt hles
      · exact hall x h

theorem maxD_spec {l : List String} {m : String} (h : maxD l = some m) :
    m ∈ l ∧ ∀ x ∈ l, pyLE x m := by
  cases l with
  | nil => simp [maxD] at h
  | cons s rest =>
    simp only [maxD, Option.some.injEq] at h
    obtain ⟨hmem, hles, hall⟩ := foldl_strMax_spec rest s
    subst h
    refine ⟨?_, ?_⟩
    · rcases hmem with h | h
      · rw [h]; exact List.mem_cons_self _ _
      · exact List.mem_cons_of_mem _ h
    · intro x hx
      rcases List.mem_cons.mp hx with h | h
      · subst h; exact hles
      · exact hall x h

theorem minD_isSome {l : List String} (h : l ≠ []) : ∃ m, minD l = some m := by
  cases l with
  | nil => exact absurd rfl h
  | cons s rest => exact ⟨_, rfl⟩

theorem maxD_isSome {l : List String} (h : l ≠ []) : ∃ m, maxD l = some m := by
  cases l with
  | nil => exact absurd rfl h
  | cons s rest => exact ⟨_, rfl⟩

/-- The `min` of a string list depends only on its multiset of members. -/
theorem minD_perm {l₁ l₂ : List String} (h : l₁ ~ l₂) : minD l₁ = minD l₂ := by
  cases hl₁ : l₁ with
  | nil =>
    subst hl₁
    rw [h.symm.eq_nil]
  | cons s rest =>
    subst hl₁
    have h₂ne : l₂ ≠ [] := by
      intro hc
      subst hc
      exact absurd h.eq_nil (by simp)
    obtain ⟨m₂, hm₂⟩ := minD_isSome h₂ne
    obtain ⟨m₁, hm₁⟩ : ∃ m, minD (s :: rest) = some m := ⟨_, rfl⟩
    obtain ⟨hmem₁, hall₁⟩ := minD_spec hm₁
    obtain ⟨hmem₂, hall₂⟩ := minD_spec hm₂
    have e : m₁ = m₂ := by
      have h₁₂ := hall₂ m₁ (h.mem_iff.mp hmem₁)
      have h₂₁ := hall₁ m₂ (h.mem_iff.mpr hmem₂)
      have := charsLE_antisymm h₂₁ h₁₂
      exact String.ext this
    rw [hm₁, hm₂, e]

theorem maxD_perm {l₁ l₂ : List String} (h : l₁ ~ l₂) : maxD l₁ = maxD l₂ := by
  cases hl₁ : l₁ with
  | nil =>
    subst hl₁
    rw [h.symm.eq_nil]
  | cons s rest =>
    subst hl₁
    have h₂ne : l₂ ≠ [] := by
      intro hc
      subst hc
      exact absurd h.eq_nil (by simp)
    obtain ⟨m₂, hm₂⟩ := maxD_isSome h₂ne
    obtain ⟨m₁, hm₁⟩ : ∃ m, maxD (s :: rest) = some m := ⟨_, rfl⟩
    obtain ⟨hmem₁, hall₁⟩ := maxD_spec hm₁
    obtain ⟨hmem₂, hall₂⟩ := maxD_spec hm₂
    have e : m₁ = m₂ := by
      have h₁₂ := hall₂ m₁ (h.mem_iff.mp hmem₁)
      have h₂₁ := hall₁ m₂ (h.mem_iff.mpr hmem₂)
      have := charsLE_antisymm h₁₂ h₂₁
      exact String.ext this
    rw [hm₁, hm₂, e]

/-! ### Theorems about the pipeline -/

theorem flatten_perm_of_perm {γ : Type} {l₁ l₂ : List (List γ)} (h : l₁ ~ l₂) :
    l₁.flatten ~ l₂.flatten := by
  induction h with
  | nil => exact Perm.refl _
  | cons x _ ih => simpa [List.flatten_cons] using ih.append_left x
  | swap x y l =>
    simp only [List.flatten_cons]
    have h1 : (y ++ x) ++ l.flatten ~ (x ++ y) ++ l.flatten :=
      (List.perm_append_comm).append_right _
    simpa [List.append_assoc] using h1
  | trans _ _ ih₁ ih₂ => exact ih₁.trans ih₂

theorem forall₂_map_of_forall {γ δ : Type} {P : δ → δ → Prop} (f g : γ → δ)
    (l : List γ) (h : ∀ x ∈ l, P (f x) (g x)) :
    List.Forall₂ P (l.map f) (l.map g) := by
  induction l with
  | nil => exact List.Forall₂.nil
  | cons x xs ih =>
    exact List.Forall₂.cons (h x (List.mem_cons_self _ _))
      (ih fun y hy => h y (List.mem_cons_of_mem _ hy))

theorem mapExcept_ok_length {ε γ δ : Type} {f : γ → Except ε δ} :
    ∀ {l : List γ} {bs : List δ}, mapExcept f l = .ok bs → bs.length = l.length := by
  intro l
  induction l with
  | nil =>
    intro bs h
    simp only [mapExcept] at h
    cases h
    rfl
  | cons a as ih =>
    intro bs h
    simp only [mapExcept] at h
    cases hfa : f a with
    | error e => rw [hfa] at h; cases h
    | ok b =>
      rw [hfa] at h
      cases hrec : mapExcept f as with
      | error e => rw [hrec] at h; cases h
      | ok bs' =>
        rw [hrec] at h
        cases h
        simpa using ih hrec

theorem mapExcept_ok_of_forall {ε γ δ : Type} {f : γ → Except ε δ}
    {l : List γ} (h : ∀ a ∈ l, ∃ b, f a = .ok b) :
    ∃ bs, mapExcept f l = .ok bs := by
  induction l with
  | nil => exact ⟨[], rfl⟩
  | cons a as ih =>
    obtain ⟨b, hb⟩ := h a (List.mem_cons_self _ _)
    obtain ⟨bs, hbs⟩ := ih fun x hx => h x (List.mem_cons_of_mem _ hx)
    refine ⟨b :: bs, ?_⟩
    simp only [mapExcept, hb, hbs]

theorem mapExcept_error_of_mem {ε γ δ : Type} {f : γ → Except ε δ}
    {l : List γ} {a : γ} {msg : ε} (ha : a ∈ l) (hf : f a = .error msg) :
    ∃ m, mapExcept f l = .error m := by
  induction l with
  | nil => cases ha
  | cons b bs ih =>
    cases hfb : f b with
    | error e => exact ⟨e, by simp only [mapExcept, hfb]⟩
    | ok v =>
      rcases List.mem_cons.mp ha with h | h
      · subst h; rw [hf] at hfb; cases hfb
      · obtain ⟨m, hm⟩ := ih h
        exact ⟨m, by simp only [mapExcept, hfb, hm]⟩

/-- Unfolding of a successful `cluster_by_time`. -/
theorem cluster_by_time_ok {kml : List Int → List Nat} {n : Nat}
    {events : List Event} {gs : List (Nat × List Event)}
    (h : cluster_by_time kml n events = .ok gs) :
    ∃ dv, dateValsE events = .ok dv ∧
      dv.length = events.length ∧ ¬ dv.length < n ∧
      gs = groupByLabels (kml dv) events := by
  unfold cluster_by_time at h
  cases hmap : dateValsE events with
  | error m => rw [hmap] at h; cases h
  | ok dv =>
    rw [hmap] at h
    dsimp only at h
    by_cases hlen : dv.length < n
    · rw [if_pos hlen] at h; cases h
    · rw [if_neg hlen] at h
      cases h
      exact ⟨dv, rfl, mapExcept_ok_length hmap, hlen, rfl⟩

/-- The events of a processed bucket are a permutation of the bucket
(given the HDBSCAN one-label-per-sample contract). -/
theorem processBucket_perm (hdb : List String → List Int) (llm : String → String)
    (bucket : List Event) (hh : ∀ ts, (hdb ts).length = ts.length) :
    segEvents (processBucket hdb llm bucket) ~ bucket := by
  have hsort : List.insertionSort evDateLE bucket ~ bucket :=
    List.perm_insertionSort evDateLE bucket
  unfold processBucket
  by_cases hlt : (List.insertionSort evDateLE bucket).length < 5
  · rw [if_pos hlt]
    simpa [segEvents, mkSubstory] using hsort
  · rw [if_neg hlt]
    simp only [segEvents, List.map_map]
    have hmk : ∀ q : Int × List Event,
        (Substory.events ∘ fun q => mkSubstory llm (List.insertionSort evDateLE q.2)) q
          = List.insertionSort evDateLE q.2 := fun q => rfl
    have h1 : ((cluster_events hdb (List.insertionSort evDateLE bucket)).map
          (Substory.events ∘ fun q => mkSubstory llm (List.insertionSort evDateLE q.2))).flatten
        ~ ((cluster_events hdb (List.insertionSort evDateLE bucket)).map Prod.snd).flatten := by
      apply List.Perm.flatten_congr
      apply forall₂_map_of_forall
      intro q _
      rw [hmk q]
      exact List.perm_insertionSort evDateLE q.2
    refine h1.trans ?_
    have h2 : groupsFlat (cluster_events hdb (List.insertionSort evDateLE bucket))
        ~ List.insertionSort evDateLE bucket := by
      apply groupsFlat_groupByLabels
      rw [hh]
      simp
    exact (h2.trans hsort)

/-- Every substory a bucket produces carries a date-sorted event list. -/
theorem processBucket_substories_sorted (hdb : List String → List Int)
    (llm : String → String) (bucket : List Event) :
    ∀ sub ∈ (processBucket hdb llm bucket).substories,
      List.Sorted evDateLE sub.events := by
  intro sub hsub
  unfold processBucket at hsub
  by_cases hlt : (List.insertionSort evDateLE bucket).length < 5
  · rw [if_pos hlt] at hsub
    simp only [List.mem_singleton] at hsub
    subst hsub
    exact List.sorted_insertionSort evDateLE bucket
  · rw [if_neg hlt] at hsub
    simp only [List.mem_map] at hsub
    obtain ⟨q, _, hq⟩ := hsub
    subst hq
    exact List.sorted_insertionSort evDateLE q.2

/-- The first element of a date-sorted nonempty list attains the minimum date. -/
theorem sorted_head_minD {l : List Event} (hs : List.Sorted evDateLE l)
    (hne : l ≠ []) : minD (l.map Event.date) = some ((l.headD dummyEvent).date) := by
  cases l with
  | nil => exact absurd rfl hne
  | cons e rest =>
    obtain ⟨m, hm⟩ : ∃ m, minD ((e :: rest).map Event.date) = some m := ⟨_, rfl⟩
    obtain ⟨hmem, hall⟩ := minD_spec hm
    have hhead : ∀ x ∈ (e :: rest).map Event.date, pyLE e.date x := by
      intro x hx
      rcases List.mem_cons.mp hx with h | h
      · subst h; exact charsLE_refl _
      · simp only [List.mem_map] at h
        obtain ⟨ev, hev, hevx⟩ := h
        subst hevx
        exact (List.rel_of_sorted_cons hs ev hev)
    have : m = e.date :=
      String.ext (charsLE_antisymm (hall e.date (by simp)) (hhead m hmem))
    rw [hm, this]
    rfl

/-- Every element of a date-sorted list is at most its last element. -/
theorem sorted_le_getLast : ∀ {l : List Event}, List.Sorted evDateLE l →
    ∀ x ∈ l, evDateLE x (l.getLastD dummyEvent) := by
  intro l
  induction l with
  | nil => intro _ x hx; cases hx
  | cons e rest ih =>
    intro hs x hx
    cases rest with
    | nil =>
      simp only [List.mem_singleton] at hx
      subst hx
      exact charsLE_refl _
    | cons f fs =>
      have hl : (e :: f :: fs).getLastD dummyEvent = (f :: fs).getLastD dummyEvent := rfl
      rw [hl]
      have hmem : (f :: fs).getLastD dummyEvent ∈ f :: fs := by
        rw [List.getLastD_cons]
        exact List.getLastD_mem_cons fs f
      rcases List.mem_cons.mp hx with h | h
      · subst h
        exact List.rel_of_sorted_cons hs _ hmem
      · exact ih (List.Sorted.of_cons hs) x h

/-- The last element of a date-sorted nonempty list attains the maximum date. -/
theorem sorted_last_maxD {l : List Event} (hs : List.Sorted evDateLE l)
    (hne : l ≠ []) : maxD (l.map Event.date) = some ((l.getLastD dummyEvent).date) := by
  cases hl : l with
  | nil => exact absurd hl hne
  | cons e rest =>
    subst hl
    obtain ⟨m, hm⟩ : ∃ m, maxD ((e :: rest).map Event.date) = some m := ⟨_, rfl⟩
    obtain ⟨hmem, hall⟩ := maxD_spec hm
    have hlastmem : (e :: rest).getLastD dummyEvent ∈ (e :: rest) := by
      rw [List.getLastD_cons]
      exact List.getLastD_mem_cons rest e
    have hlastdate : ((e :: rest).getLastD dummyEvent).date ∈ (e :: rest).map Event.date :=
      List.mem_map_of_mem Event.date hlastmem
    have hub : ∀ x ∈ (e :: rest).map Event.date,
        pyLE x (((e :: rest).getLastD dummyEvent).date) := by
      intro x hx
      simp only [List.mem_map] at hx
      obtain ⟨ev, hev, hevx⟩ := hx
      subst hevx
      exact sorted_le_getLast hs ev hev
    have : m = ((e :: rest).getLastD dummyEvent).date :=
      String.ext (charsLE_antisymm (hub m hmem) (hall _ hlastdate))
    rw [hm, this]

/-- Evaluate `cluster_by_time` once the date conversion result is known. -/
theorem cluster_by_time_eq {events : List Event} {dv : List Int}
    (kml : List Int → List Nat) (n : Nat) (hdv : dateValsE events = .ok dv) :
    cluster_by_time kml n events =
      if dv.length < n then
        .error "ValueError: n_samples should be at least n_clusters"
      else .ok (groupByLabels (kml dv) events) := by
  unfold cluster_by_time
  rw [hdv]

/-- A valid date makes the per-event conversion succeed. -/
theorem dateValsE_ok_of_valid {events : List Event}
    (h : ∀ e ∈ events, (parseDateYMD e.date).isSome) :
    ∃ dv, dateValsE events = .ok dv ∧ dv.length = events.length := by
  have hall : ∀ e ∈ events, ∃ b,
      (match date_to_days e.date with
        | some v => Except.ok v
        | none => (Except.error "ValueError: time data does not match format" :
            Except String Int)) = .ok b := by
    intro e he
    have hsome := h e he
    cases hp : parseDateYMD e.date with
    | none => rw [hp] at hsome; simp at hsome
    | some t =>
      refine ⟨(toOrdinal t.1 t.2.1 t.2.2 : Int) - (toOrdinal 2000 1 1 : Int), ?_⟩
      simp [date_to_days, hp]
  obtain ⟨dv, hdv⟩ := mapExcept_ok_of_forall hall
  exact ⟨dv, hdv, mapExcept_ok_length hdv⟩

/-- An invalid date makes the conversion raise. -/
theorem dateValsE_error_of_bad {events : List Event} {e : Event}
    (he : e ∈ events) (hbad : parseDateYMD e.date = none) :
    ∃ m, dateValsE events = .error m := by
  have hf : (match date_to_days e.date with
      | some v => Except.ok v
      | none => (Except.error "ValueError: time data does not match format" :
          Except String Int))
      = .error "ValueError: time data does not match format" := by
    simp [date_to_days, hbad]
  exact mapExcept_error_of_mem he hf

/-- Both branches of `processBucket` label the segment with the window of the
sorted bucket. -/
theorem processBucket_window_label (hdb : List String → List Int)
    (llm : String → String) (bucket : List Event) :
    (processBucket hdb llm bucket).time_window =
      timeWindowLabel (List.insertionSort evDateLE bucket) := by
  unfold processBucket
  by_cases h : (List.insertionSort evDateLE bucket).length < 5
  · rw [if_pos h]
  · rw [if_neg h]

/-- A processed bucket keeps the bucket's minimum date. -/
theorem segMinDate_processBucket (hdb : List String → List Int)
    (llm : String → String) (bucket : List Event)
    (hh : ∀ ts, (hdb ts).length = ts.length) :
    segMinDate (processBucket hdb llm bucket) = bucketMinDate bucket := by
  unfold segMinDate bucketMinDate
  exact minD_perm ((processBucket_perm hdb llm bucket hh).map Event.date)

/-- The window label of a processed nonempty bucket is
`min date ++ " – " ++ max date` over the segment's events. -/
theorem processBucket_window (hdb : List String → List Int)
    (llm : String → String) (bucket : List Event) (hne : bucket ≠ [])
    (hh : ∀ ts, (hdb ts).length = ts.length) :
    ∃ dmin dmax,
      segMinDate (processBucket hdb llm bucket) = some dmin ∧
      segMaxDate (processBucket hdb llm bucket) = some dmax ∧
      (processBucket hdb llm bucket).time_window = dmin ++ " – " ++ dmax := by
  have hsortperm : List.insertionSort evDateLE bucket ~ bucket :=
    List.perm_insertionSort evDateLE bucket
  have htgne : List.insertionSort evDateLE bucket ≠ [] := by
    intro hc
    exact hne (List.Perm.eq_nil (hc ▸ hsortperm.symm))
  have hsorted : List.Sorted evDateLE (List.insertionSort evDateLE bucket) :=
    List.sorted_insertionSort evDateLE bucket
  have hpermseg : segEvents (processBucket hdb llm bucket)
      ~ List.insertionSort evDateLE bucket :=
    (processBucket_perm hdb llm bucket hh).trans hsortperm.symm
  refine ⟨((List.insertionSort evDateLE bucket).headD dummyEvent).date,
    ((List.insertionSort evDateLE bucket).getLastD dummyEvent).date, ?_, ?_, ?_⟩
  · unfold segMinDate
    rw [minD_perm (hpermseg.map Event.date)]
    exact sorted_head_minD hsorted htgne
  · unfold segMaxDate
    rw [maxD_perm (hpermseg.map Event.date)]
    exact sorted_last_maxD hsorted htgne
  · rw [processBucket_window_label]
    rfl

/-! ### The claims -/

/-- C2: for every time bucket passed to the semantic sub-clusterer, the union
of the returned clusters — including those formed from events labelled noise
(−1) — is exactly the input bucket, and there is one output cluster per
distinct label value (given HDBSCAN's one-label-per-sample contract). -/
theorem claim_C2 (hdb : List String → List Int) (bucket : List Event)
    (hlen : (hdb (bucket.map Event.event)).length = bucket.length) :
    groupsFlat (cluster_events hdb bucket) ~ bucket ∧
    (groupsKeys (cluster_events hdb bucket)).Nodup ∧
    ∀ l : Int, l ∈ groupsKeys (cluster_events hdb bucket) ↔
      l ∈ hdb (bucket.map Event.event) := by
  have hl : (hdb (bucket.map Event.event)).length = bucket.length := hlen
  refine ⟨groupsFlat_groupByLabels _ _ hl, ?_, ?_⟩
  · exact (groupsKeys_groupByLabels _ _ hl).1
  · exact (groupsKeys_groupByLabels _ _ hl).2

/-- Witness for C2 on a concrete three-event bucket whose labels are
`[-1, -1, 0]` (a noise pair and one cluster). -/
theorem claim_C2_witness :
    groupsFlat (cluster_events
        (fun ts => (List.range ts.length).map fun i => if i < 2 then (-1 : Int) else 0)
        [⟨"a", "2024/01/01", "u"⟩, ⟨"b", "2024/01/02", "u"⟩, ⟨"c", "2024/01/03", "u"⟩])
      ~ [⟨"a", "2024/01/01", "u"⟩, ⟨"b", "2024/01/02", "u"⟩, ⟨"c", "2024/01/03", "u"⟩] ∧
    (groupsKeys (cluster_events
        (fun ts => (List.range ts.length).map fun i => if i < 2 then (-1 : Int) else 0)
        [⟨"a", "2024/01/01", "u"⟩, ⟨"b", "2024/01/02", "u"⟩, ⟨"c", "2024/01/03", "u"⟩])).Nodup ∧
    ∀ l : Int, l ∈ groupsKeys (cluster_events
        (fun ts => (List.range ts.length).map fun i => if i < 2 then (-1 : Int) else 0)
        [⟨"a", "2024/01/01", "u"⟩, ⟨"b", "2024/01/02", "u"⟩, ⟨"c", "2024/01/03", "u"⟩]) ↔
      l ∈ (fun ts => (List.range ts.length).map fun i => if i < 2 then (-1 : Int) else 0)
        ([⟨"a", "2024/01/01", "u"⟩, ⟨"b", "2024/01/02", "u"⟩,
          ⟨"c", "2024/01/03", "u"⟩].map Event.event) :=
  claim_C2
    (fun ts => (List.range ts.length).map fun i => if i < 2 then (-1 : Int) else 0)
    [⟨"a", "2024/01/01", "u"⟩, ⟨"b", "2024/01/02", "u"⟩, ⟨"c", "2024/01/03", "u"⟩]
    (by simp)

/-- C3 as stated is false: a single-event list (fewer than `K = 4` distinct
events) makes the temporal partitioner raise sklearn's
`n_samples < n_clusters` error rather than fall back. -/
theorem claim_C3_counterexample :
    cluster_by_time (fun xs => xs.map fun _ => 0) 4 [⟨"a", "2024/01/01", "u"⟩]
      = Except.error "ValueError: n_samples should be at least n_clusters" := rfl

/-- C3 amended: for valid dates, the partitioner raises whenever the event
list has fewer than `n_clusters = 4` elements (hence in particular for fewer
than 4 distinct events), and succeeds as soon as it has at least 4 elements. -/
theorem claim_C3_amended (kml : List Int → List Nat) (events : List Event)
    (hdates : ∀ e ∈ events, (parseDateYMD e.date).isSome) :
    (events.length < 4 → ∃ m, cluster_by_time kml 4 events = .error m) ∧
    (4 ≤ events.length → ∃ gs, cluster_by_time kml 4 events = .ok gs) := by
  obtain ⟨dv, hdv, hdvlen⟩ := dateValsE_ok_of_valid hdates
  rw [cluster_by_time_eq kml 4 hdv]
  constructor
  · intro hlt
    rw [if_pos (by rw [hdvlen]; exact hlt)]
    exact ⟨_, rfl⟩
  · intro hge
    rw [if_neg (by rw [hdvlen]; exact Nat.not_lt.mpr hge)]
    exact ⟨_, rfl⟩

/-- Witness for the amended C3 at concrete inputs: two valid-dated events
fail, four succeed. -/
theorem claim_C3_witness :
    (∃ m, cluster_by_time (fun xs => xs.map fun _ => 0) 4
      [⟨"a", "2024/01/01", "u"⟩, ⟨"b", "2024/01/02", "u"⟩] = .error m) ∧
    (∃ gs, cluster_by_time (fun xs => xs.map fun _ => 0) 4
      [⟨"a", "2024/01/01", "u"⟩, ⟨"b", "2024/01/02", "u"⟩,
        ⟨"c", "2024/01/03", "u"⟩, ⟨"d", "2024/01/04", "u"⟩] = .ok gs) :=
  ⟨(claim_C3_amended (fun xs => xs.map fun _ => 0)
      [⟨"a", "2024/01/01", "u"⟩, ⟨"b", "2024/01/02", "u"⟩]
      (by decide)).1 (by decide),
    (claim_C3_amended (fun xs => xs.map fun _ => 0)
      [⟨"a", "2024/01/01", "u"⟩, ⟨"b", "2024/01/02", "u"⟩,
        ⟨"c", "2024/01/03", "u"⟩, ⟨"d", "2024/01/04", "u"⟩]
      (by decide)).2 (by decide)⟩

/-- C4 as stated is false: with zero retrieved articles the event list is
empty and `run_incontext` raises (KMeans cannot fit zero samples) instead of
returning an empty Timeline. -/
theorem claim_C4_counterexample :
    run_incontext (fun _ => []) (fun _ => none) (fun _ _ => "") (fun _ => none)
      (fun xs => xs.map fun _ => 0) (fun ts => ts.map fun _ => 0) (fun _ => "")
      "any query"
      = Except.error "ValueError: n_samples should be at least n_clusters" := rfl

/-- C4 amended: an empty event list after extraction makes the pipeline raise
(`n_samples < n_clusters` inside `cluster_by_time`); the HTTP layer reports a
generic 500 error, and no (empty) Timeline is produced. -/
theorem claim_C4_amended (src : String → List Article)
    (fetchText : String → Option String) (llmE : Article → String → String)
    (jsonParse : String → Option (List RawEvent))
    (kml : List Int → List Nat) (hdb : List String → List Int)
    (llm : String → String) (q : String)
    (hempty : pipeline_events src fetchText llmE jsonParse q = []) :
    ∃ m, run_incontext src fetchText llmE jsonParse kml hdb llm q
      = Except.error m := by
  unfold run_incontext
  rw [hempty]
  exact ⟨_, rfl⟩

/-- Witness for the amended C4: a source returning no articles. -/
theorem claim_C4_witness :
    ∃ m, run_incontext (fun _ => []) (fun _ => none) (fun _ _ => "")
      (fun _ => none) (fun xs => xs.map fun _ => 0) (fun ts => ts.map fun _ => 0)
      (fun _ => "") "q" = Except.error m :=
  claim_C4_amended (fun _ => []) (fun _ => none) (fun _ _ => "") (fun _ => none)
    (fun xs => xs.map fun _ => 0) (fun ts => ts.map fun _ => 0) (fun _ => "")
    "q" rfl

theorem scanTitleSummary_fst_of_no_title {lines : List String}
    (h : ∀ l ∈ lines, pyStartsWith l "Title:" = false) :
    ∀ t s, (scanTitleSummary t s lines).1 = t := by
  induction lines with
  | nil => intro t s; rfl
  | cons line rest ih =>
    intro t s
    have h1 : pyStartsWith line "Title:" = false := h line (List.mem_cons_self _ _)
    have hrest : ∀ l ∈ rest, pyStartsWith l "Title:" = false :=
      fun l hl => h l (List.mem_cons_of_mem _ hl)
    simp only [scanTitleSummary]
    rw [if_neg (by simp [h1])]
    by_cases h2 : pyStartsWith line "Summary:" = true
    · rw [if_pos h2]
      exact ih hrest t _
    · rw [if_neg h2]
      by_cases h3 : t ≠ "" ∧ s ≠ ""
      · rw [if_pos h3]
      · rw [if_neg h3]
        exact ih hrest t s

theorem scanTitleSummary_snd_of_no_summary {lines : List String}
    (h : ∀ l ∈ lines, pyStartsWith l "Summary:" = false) :
    ∀ t s, (scanTitleSummary t s lines).2 = s := by
  induction lines with
  | nil => intro t s; rfl
  | cons line rest ih =>
    intro t s
    have h1 : pyStartsWith line "Summary:" = false := h line (List.mem_cons_self _ _)
    have hrest : ∀ l ∈ rest, pyStartsWith l "Summary:" = false :=
      fun l hl => h l (List.mem_cons_of_mem _ hl)
    simp only [scanTitleSummary]
    by_cases h0 : pyStartsWith line "Title:" = true
    · rw [if_pos h0]
      exact ih hrest _ s
    · rw [if_neg h0]
      rw [if_neg (by simp [h1])]
      by_cases h3 : t ≠ "" ∧ s ≠ ""
      · rw [if_pos h3]
      · rw [if_neg h3]
        exact ih hrest t s

/-- C7: Summarizer response parsing extracts the text after a `Title:` line
and a `Summary:` line, returns the empty string for an absent label (and,
being a total function, never raises), and deterministically parses the
well-formed response `"Title: X\nSummary: Y"` into `("X", "Y")`. -/
theorem claim_C7 :
    (∀ content, (∀ l ∈ pySplitlines (pyStrip content),
        pyStartsWith l "Title:" = false) →
      (parseSummaryResponse content).1 = "") ∧
    (∀ content, (∀ l ∈ pySplitlines (pyStrip content),
        pyStartsWith l "Summary:" = false) →
      (parseSummaryResponse content).2 = "") ∧
    parseSummaryResponse "Title: X\nSummary: Y" = ("X", "Y") := by
  refine ⟨?_, ?_, by decide⟩
  · intro content h
    exact scanTitleSummary_fst_of_no_title h "" ""
  · intro content h
    exact scanTitleSummary_snd_of_no_summary h "" ""

/-- Witness for C7: a response with no labelled line parses to empty fields. -/
theorem claim_C7_witness :
    (parseSummaryResponse "nothing labelled here").1 = "" ∧
    (parseSummaryResponse "Title: only a title").2 = "" :=
  ⟨claim_C7.1 "nothing labelled here" (by decide),
    claim_C7.2.1 "Title: only a title" (by decide)⟩

/-- C9: a failed page fetch or invalid extraction JSON yields an empty event
list for that article without raising, and the events of the remaining
articles are still processed. -/
theorem claim_C9 (fetchText : String → Option String)
    (llmE : Article → String → String)
    (jsonParse : String → Option (List RawEvent)) (a : Article) :
    (∀ txt, fetchText a.url = some txt →
      jsonParse (cleanEventResponse (llmE a txt)) = none →
      extract_events fetchText llmE jsonParse a = []) ∧
    (fetchText a.url = none → extract_events fetchText llmE jsonParse a = []) ∧
    (∀ (src : String → List Article) q a₂, src q = [a, a₂] →
      extract_events fetchText llmE jsonParse a = [] →
      pipeline_events src fetchText llmE jsonParse q =
        extract_events fetchText llmE jsonParse a₂) := by
  refine ⟨?_, ?_, ?_⟩
  · intro txt hf hj
    unfold extract_events gpt_event_exraction
    rw [hf]
    dsimp only
    by_cases he : txt = ""
    · rw [if_pos he]
      rfl
    · rw [if_neg he, hj]
      rfl
  · intro hn
    unfold extract_events gpt_event_exraction
    rw [hn]
    rfl
  · intro src q a₂ hsrc hempty
    unfold pipeline_events
    rw [hsrc]
    simp [hempty]

/-- Witness for C9: a concrete article whose extraction JSON fails to parse
contributes nothing, while the second article's events survive. -/
theorem claim_C9_witness :
    extract_events (fun _ => some "text") (fun _ _ => "resp") (fun _ => none)
      ⟨"t1", "u1", "x1", "2024-01-01"⟩ = [] ∧
    pipeline_events
      (fun _ => [⟨"t1", "u1", "x1", "2024-01-01"⟩, ⟨"t2", "u2", "x2", "2024-01-02"⟩])
      (fun _ => some "text") (fun _ _ => "resp") (fun _ => none) "q" =
    extract_events (fun _ => some "text") (fun _ _ => "resp") (fun _ => none)
      ⟨"t2", "u2", "x2", "2024-01-02"⟩ :=
  ⟨(claim_C9 (fun _ => some "text") (fun _ _ => "resp") (fun _ => none)
      ⟨"t1", "u1", "x1", "2024-01-01"⟩).1 "text" rfl rfl,
    (claim_C9 (fun _ => some "text") (fun _ _ => "resp") (fun _ => none)
      ⟨"t1", "u1", "x1", "2024-01-01"⟩).2.2
      (fun _ => [⟨"t1", "u1", "x1", "2024-01-01"⟩, ⟨"t2", "u2", "x2", "2024-01-02"⟩])
      "q" ⟨"t2", "u2", "x2", "2024-01-02"⟩ rfl
      ((claim_C9 (fun _ => some "text") (fun _ _ => "resp") (fun _ => none)
        ⟨"t1", "u1", "x1", "2024-01-01"⟩).1 "text" rfl rfl)⟩

/-- C10: any event whose date string does not parse as `%Y/%m/%d` makes the
temporal partitioner raise, and the exception aborts the whole run — there
is no per-event recovery. -/
theorem claim_C10 (kml : List Int → List Nat) (hdb : List String → List Int)
    (llm : String → String) (events : List Event) (e : Event)
    (he : e ∈ events) (hbad : parseDateYMD e.date = none) :
    (∃ m, cluster_by_time kml 4 events = .error m) ∧
    (∃ m, cluster_temporal_then_semantic kml hdb llm events = .error m) ∧
    ∀ (src : String → List Article) fetchText llmE jsonParse q,
      pipeline_events src fetchText llmE jsonParse q = events →
      ∃ m, run_incontext src fetchText llmE jsonParse kml hdb llm q
        = .error m := by
  obtain ⟨m, hm⟩ := dateValsE_error_of_bad he hbad
  have hcbt : cluster_by_time kml 4 events = .error m := by
    unfold cluster_by_time
    rw [hm]
  have hctts : cluster_temporal_then_semantic kml hdb llm events = .error m := by
    unfold cluster_temporal_then_semantic
    rw [hcbt]
  refine ⟨⟨m, hcbt⟩, ⟨m, hctts⟩, ?_⟩
  intro src f l j q hpe
  refine ⟨m, ?_⟩
  unfold run_incontext
  rw [hpe, hctts]

/-- Witness for C10: one malformed date string aborts clustering. -/
theorem claim_C10_witness :
    (∃ m, cluster_by_time (fun xs => xs.map fun _ => 0) 4
      [⟨"a", "2024/01/01", "u"⟩, ⟨"b", "June 2024", "u"⟩] = .error m) ∧
    (∃ m, cluster_temporal_then_semantic (fun xs => xs.map fun _ => 0)
      (fun ts => ts.map fun _ => 0) (fun _ => "")
      [⟨"a", "2024/01/01", "u"⟩, ⟨"b", "June 2024", "u"⟩] = .error m) ∧
    ∀ (src : String → List Article) fetchText llmE jsonParse q,
      pipeline_events src fetchText llmE jsonParse q =
        [⟨"a", "2024/01/01", "u"⟩, ⟨"b", "June 2024", "u"⟩] →
      ∃ m, run_incontext src fetchText llmE jsonParse
        (fun xs => xs.map fun _ => 0) (fun ts => ts.map fun _ => 0) (fun _ => "")
        q = .error m :=
  claim_C10 (fun xs => xs.map fun _ => 0) (fun ts => ts.map fun _ => 0)
    (fun _ => "") [⟨"a", "2024/01/01", "u"⟩, ⟨"b", "June 2024", "u"⟩]
    ⟨"b", "June 2024", "u"⟩ (by decide) (by decide)

/-- C1: whenever the temporal partitioner returns groups, their union is
exactly the input events (no loss, no duplication), and whenever the full
clustering pipeline returns a timeline, every input event appears in exactly
one substory of it — the concatenation of all substories' events is a
permutation of the input (given the one-label-per-sample contracts of KMeans
and HDBSCAN). -/
theorem claim_C1 (kml : List Int → List Nat) (hdb : List String → List Int)
    (llm : String → String) (events : List Event)
    (hk : ∀ xs, (kml xs).length = xs.length)
    (hh : ∀ ts, (hdb ts).length = ts.length) :
    (∀ gs, cluster_by_time kml 4 events = .ok gs → groupsFlat gs ~ events) ∧
    (∀ segs, cluster_temporal_then_semantic kml hdb llm events = .ok segs →
      (segs.map segEvents).flatten ~ events) := by
  have hcbt : ∀ gs, cluster_by_time kml 4 events = .ok gs →
      groupsFlat gs ~ events := by
    intro gs hgs
    obtain ⟨dv, _, hdvlen, _, hgseq⟩ := cluster_by_time_ok hgs
    subst hgseq
    apply groupsFlat_groupByLabels
    rw [hk, hdvlen]
  refine ⟨hcbt, ?_⟩
  intro segs hsegs
  unfold cluster_temporal_then_semantic at hsegs
  cases hct : cluster_by_time kml 4 events with
  | error m => rw [hct] at hsegs; cases hsegs
  | ok tcs =>
    rw [hct] at hsegs
    dsimp only at hsegs
    cases hsegs
    rw [List.map_map]
    have hsp : List.insertionSort bucketLE tcs ~ tcs :=
      List.perm_insertionSort _ _
    have h1 : (((List.insertionSort bucketLE tcs).map
        (segEvents ∘ fun p => processBucket hdb llm p.2)).flatten)
        ~ (((List.insertionSort bucketLE tcs).map Prod.snd).flatten) := by
      apply List.Perm.flatten_congr
      apply forall₂_map_of_forall
      intro p _
      exact processBucket_perm hdb llm p.2 hh
    refine h1.trans ?_
    refine (flatten_perm_of_perm (hsp.map Prod.snd)).trans ?_
    exact hcbt tcs hct

/-- Witness for C1 on four concrete events under constant oracles. -/
theorem claim_C1_witness :
    (([(⟨"2024/01/01 – 2024/01/04",
        [⟨"T", "S", [⟨"b", "2024/01/01", "u"⟩, ⟨"a", "2024/01/02", "u"⟩,
          ⟨"c", "2024/01/03", "u"⟩, ⟨"d", "2024/01/04", "u"⟩]⟩]⟩ : Segment)].map
      segEvents).flatten)
      ~ [⟨"a", "2024/01/02", "u"⟩, ⟨"b", "2024/01/01", "u"⟩,
        ⟨"c", "2024/01/03", "u"⟩, ⟨"d", "2024/01/04", "u"⟩] :=
  (claim_C1 (fun xs => xs.map fun _ => 0) (fun ts => ts.map fun _ => 0)
    (fun _ => "Title: T\nSummary: S")
    [⟨"a", "2024/01/02", "u"⟩, ⟨"b", "2024/01/01", "u"⟩,
      ⟨"c", "2024/01/03", "u"⟩, ⟨"d", "2024/01/04", "u"⟩]
    (fun xs => by simp) (fun ts => by simp)).2 _ rfl

/-- C5: a time bucket with fewer than 5 events (e.g. exactly 4) never invokes
semantic sub-clustering — its segment is one substory holding the whole
sorted bucket, independent of the sub-clustering oracle — while a bucket with
5 or more events (e.g. exactly 5) is sub-clustered, one substory per distinct
HDBSCAN label. -/
theorem claim_C5 (hdb : List String → List Int) (llm : String → String)
    (bucket : List Event) :
    (bucket.length < 5 →
      (∀ hdb', processBucket hdb llm bucket = processBucket hdb' llm bucket) ∧
      (processBucket hdb llm bucket).substories =
        [mkSubstory llm (List.insertionSort evDateLE bucket)]) ∧
    ((∀ ts, (hdb ts).length = ts.length) → 5 ≤ bucket.length →
      (processBucket hdb llm bucket).substories.length =
        ((hdb ((List.insertionSort evDateLE bucket).map Event.event)).dedup).length) := by
  have hlen : (List.insertionSort evDateLE bucket).length = bucket.length :=
    (List.perm_insertionSort evDateLE bucket).length_eq
  constructor
  · intro h5
    have hlt : (List.insertionSort evDateLE bucket).length < 5 := by
      rw [hlen]; exact h5
    constructor
    · intro hdb'
      unfold processBucket
      rw [if_pos hlt, if_pos hlt]
    · unfold processBucket
      rw [if_pos hlt]
  · intro hh h5
    have hge : ¬ (List.insertionSort evDateLE bucket).length < 5 := by
      rw [hlen]; exact Nat.not_lt.mpr h5
    unfold processBucket
    rw [if_neg hge]
    dsimp only
    rw [List.length_map]
    have hlab : (hdb ((List.insertionSort evDateLE bucket).map Event.event)).length
        = (List.insertionSort evDateLE bucket).length := by
      rw [hh, List.length_map]
    obtain ⟨hnodup, hmem⟩ := groupsKeys_groupByLabels
      (hdb ((List.insertionSort evDateLE bucket).map Event.event))
      (List.insertionSort evDateLE bucket) hlab
    have h1 : (cluster_events hdb (List.insertionSort evDateLE bucket)).length
        = (groupsKeys (cluster_events hdb (List.insertionSort evDateLE bucket))).length := by
      simp [groupsKeys]
    have hperm : groupsKeys (cluster_events hdb (List.insertionSort evDateLE bucket))
        ~ (hdb ((List.insertionSort evDateLE bucket).map Event.event)).dedup := by
      unfold cluster_events
      rw [List.perm_ext_iff_of_nodup hnodup (List.nodup_dedup _)]
      intro a
      rw [List.mem_dedup]
      exact hmem a
    rw [h1, hperm.length_eq]

/-- Witness for C5: a 4-event bucket gives one substory holding the whole
bucket; a 5-event bucket with labels `[-1, -1, 0, 0, 0]` gives one substory
per distinct label. -/
theorem claim_C5_witness :
    (processBucket (fun ts => ts.map fun _ => (0 : Int))
        (fun _ => "Title: T\nSummary: S")
        [⟨"a", "2024/01/02", "u"⟩, ⟨"b", "2024/01/01", "u"⟩,
          ⟨"c", "2024/01/03", "u"⟩, ⟨"d", "2024/01/04", "u"⟩]).substories =
      [mkSubstory (fun _ => "Title: T\nSummary: S")
        (List.insertionSort evDateLE
          [⟨"a", "2024/01/02", "u"⟩, ⟨"b", "2024/01/01", "u"⟩,
            ⟨"c", "2024/01/03", "u"⟩, ⟨"d", "2024/01/04", "u"⟩])] ∧
    (processBucket
        (fun ts => (List.range ts.length).map fun i => if i < 2 then (-1 : Int) else 0)
        (fun _ => "Title: T\nSummary: S")
        [⟨"a", "2024/01/01", "u"⟩, ⟨"b", "2024/01/02", "u"⟩,
          ⟨"c", "2024/01/03", "u"⟩, ⟨"d", "2024/01/04", "u"⟩,
          ⟨"e", "2024/01/05", "u"⟩]).substories.length =
      (((fun ts => (List.range ts.length).map fun i => if i < 2 then (-1 : Int) else 0)
        ((List.insertionSort evDateLE
          [⟨"a", "2024/01/01", "u"⟩, ⟨"b", "2024/01/02", "u"⟩,
            ⟨"c", "2024/01/03", "u"⟩, ⟨"d", "2024/01/04", "u"⟩,
            ⟨"e", "2024/01/05", "u"⟩]).map Event.event)).dedup).length :=
  ⟨((claim_C5 (fun ts => ts.map fun _ => (0 : Int))
      (fun _ => "Title: T\nSummary: S")
      [⟨"a", "2024/01/02", "u"⟩, ⟨"b", "2024/01/01", "u"⟩,
        ⟨"c", "2024/01/03", "u"⟩, ⟨"d", "2024/01/04", "u"⟩]).1 (by decide)).2,
    (claim_C5
      (fun ts => (List.range ts.length).map fun i => if i < 2 then (-1 : Int) else 0)
      (fun _ => "Title: T\nSummary: S")
      [⟨"a", "2024/01/01", "u"⟩, ⟨"b", "2024/01/02", "u"⟩,
        ⟨"c", "2024/01/03", "u"⟩, ⟨"d", "2024/01/04", "u"⟩,
        ⟨"e", "2024/01/05", "u"⟩]).2 (fun ts => by simp) (by decide)⟩

/-- C6: in every assembled timeline, segments appear in non-decreasing order
of the minimum date among their events, and within every substory the events
appear in non-decreasing date order. -/
theorem claim_C6 (kml : List Int → List Nat) (hdb : List String → List Int)
    (llm : String → String) (events : List Event)
    (hh : ∀ ts, (hdb ts).length = ts.length) (segs : List Segment)
    (hsegs : cluster_temporal_then_semantic kml hdb llm events = .ok segs) :
    List.Sorted (fun s₁ s₂ => optMinLE (segMinDate s₁) (segMinDate s₂) = true) segs ∧
    ∀ seg ∈ segs, ∀ sub ∈ seg.substories, List.Sorted evDateLE sub.events := by
  unfold cluster_temporal_then_semantic at hsegs
  cases hct : cluster_by_time kml 4 events with
  | error m => rw [hct] at hsegs; cases hsegs
  | ok tcs =>
    rw [hct] at hsegs
    dsimp only at hsegs
    cases hsegs
    constructor
    · have hsorted : List.Sorted bucketLE (List.insertionSort bucketLE tcs) :=
        List.sorted_insertionSort bucketLE tcs
      unfold List.Sorted at hsorted ⊢
      rw [List.pairwise_map]
      refine hsorted.imp ?_
      intro a b hab
      rw [segMinDate_processBucket hdb llm a.2 hh,
        segMinDate_processBucket hdb llm b.2 hh]
      exact hab
    · intro seg hseg sub hsub
      simp only [List.mem_map] at hseg
      obtain ⟨p, _, hp⟩ := hseg
      subst hp
      exact processBucket_substories_sorted hdb llm p.2 sub hsub

/-- Witness for C6 on the four-event run. -/
theorem claim_C6_witness :
    List.Sorted (fun s₁ s₂ => optMinLE (segMinDate s₁) (segMinDate s₂) = true)
      [(⟨"2024/01/01 – 2024/01/04",
        [⟨"T", "S", [⟨"b", "2024/01/01", "u"⟩, ⟨"a", "2024/01/02", "u"⟩,
          ⟨"c", "2024/01/03", "u"⟩, ⟨"d", "2024/01/04", "u"⟩]⟩]⟩ : Segment)] ∧
    ∀ seg ∈ [(⟨"2024/01/01 – 2024/01/04",
        [⟨"T", "S", [⟨"b", "2024/01/01", "u"⟩, ⟨"a", "2024/01/02", "u"⟩,
          ⟨"c", "2024/01/03", "u"⟩, ⟨"d", "2024/01/04", "u"⟩]⟩]⟩ : Segment)],
      ∀ sub ∈ seg.substories, List.Sorted evDateLE sub.events :=
  claim_C6 (fun xs => xs.map fun _ => 0) (fun ts => ts.map fun _ => 0)
    (fun _ => "Title: T\nSummary: S")
    [⟨"a", "2024/01/02", "u"⟩, ⟨"b", "2024/01/01", "u"⟩,
      ⟨"c", "2024/01/03", "u"⟩, ⟨"d", "2024/01/04", "u"⟩]
    (fun ts => by simp) _ rfl

/-- C8: every assembled segment is labelled with the time window
`min date – max date` over its events (which are exactly the events of its
source time bucket); when min and max coincide the label degenerates to
`date – date`. -/
theorem claim_C8 (kml : List Int → List Nat) (hdb : List String → List Int)
    (llm : String → String) (events : List Event)
    (hh : ∀ ts, (hdb ts).length = ts.length) (segs : List Segment)
    (hsegs : cluster_temporal_then_semantic kml hdb llm events = .ok segs) :
    ∀ seg ∈ segs, ∃ dmin dmax,
      segMinDate seg = some dmin ∧ segMaxDate seg = some dmax ∧
      seg.time_window = dmin ++ " – " ++ dmax := by
  unfold cluster_temporal_then_semantic at hsegs
  cases hct : cluster_by_time kml 4 events with
  | error m => rw [hct] at hsegs; cases hsegs
  | ok tcs =>
    obtain ⟨dv, _, _, _, htcs⟩ := cluster_by_time_ok hct
    rw [hct] at hsegs
    dsimp only at hsegs
    cases hsegs
    intro seg hseg
    simp only [List.mem_map] at hseg
    obtain ⟨p, hpmem, hp⟩ := hseg
    subst hp
    have hptcs : p ∈ tcs :=
      (List.perm_insertionSort bucketLE tcs).mem_iff.mp hpmem
    have hne : p.2 ≠ [] := by
      subst htcs
      exact groups_nonempty_groupByLabels (kml dv) events p hptcs
    exact processBucket_window hdb llm p.2 hne hh

/-- Witness for C8 on the four-event run: the window is
`2024/01/01 – 2024/01/04`. -/
theorem claim_C8_witness :
    (⟨"2024/01/01 – 2024/01/04",
        [⟨"T", "S", [⟨"b", "2024/01/01", "u"⟩, ⟨"a", "2024/01/02", "u"⟩,
          ⟨"c", "2024/01/03", "u"⟩, ⟨"d", "2024/01/04", "u"⟩]⟩]⟩ : Segment).time_window
      = "2024/01/01" ++ " – " ++ "2024/01/04" := by
  obtain ⟨dmin, dmax, h1, h2, h3⟩ :=
    claim_C8 (fun xs => xs.map fun _ => 0) (fun ts => ts.map fun _ => 0)
      (fun _ => "Title: T\nSummary: S")
      [⟨"a", "2024/01/02", "u"⟩, ⟨"b", "2024/01/01", "u"⟩,
        ⟨"c", "2024/01/03", "u"⟩, ⟨"d", "2024/01/04", "u"⟩]
      (fun ts => by simp) _ rfl
      (⟨"2024/01/01 – 2024/01/04",
        [⟨"T", "S", [⟨"b", "2024/01/01", "u"⟩, ⟨"a", "2024/01/02", "u"⟩,
          ⟨"c", "2024/01/03", "u"⟩, ⟨"d", "2024/01/04", "u"⟩]⟩]⟩ : Segment)
      (List.mem_singleton.mpr rfl)
  have e1 : some dmin = some "2024/01/01" := by
    rw [← h1]
    decide
  have e2 : some dmax = some "2024/01/04" := by
    rw [← h2]
    decide
  rw [h3, Option.some.inj e1, Option.some.inj e2]
